import Mathlib

/-!
Verification development for the manchester-code crate (src/lib.rs).

The Rust source is shallowly embedded: machine integers (u8, u128) become
Nat with explicit bounds or explicit reduction modulo 2 ^ 128 where the
source arithmetic can wrap, fallible operations (Result, panicking unwrap,
checked integer increments) become Except / Option, and the two sampling
state machines (Decoder, InfraredEmitter) become explicit step functions
on state structures.
-/

/-- BitOrder from the source: ordering of bits during transmission. -/
inductive BitOrder where
  | BigEndian
  | LittleEndian
deriving DecidableEq, Repr

/-- ActivityLevel from the source: level of the pin while a datagram is
transmitted; its negation is the inactivity (idle) level. -/
inductive ActivityLevel where
  | High
  | Low
deriving DecidableEq, Repr

/-- SyncOnTurningEdge from the source: whether bit alignment locks on the
first or the second observed edge. -/
inductive SyncOnTurningEdge where
  | First
  | Second
deriving DecidableEq, Repr

/-- Datagram from the source: a packed bit container.  `buffer` embeds the
u128 field, `length_in_bit` the u8 field. -/
structure Datagram where
  length_in_bit : Nat
  buffer : Nat
deriving DecidableEq, Repr

/-- Datagram::default (Rust derive(Default)): the empty datagram. -/
def Datagram.emptyDG : Datagram := ⟨0, 0⟩

/-- Datagram::add_bit from the source.  Errors iff the datagram already
holds 127 bits.  BigEndian shifts the packed word up and puts the new bit
at the least significant position; LittleEndian puts the new bit at
position `length_in_bit`.  The u128 word wraps modulo 2 ^ 128, made
explicit here; for well-formed datagrams (length at most 127, bits above
the length zero) the reduction is the identity. -/
def Datagram.add_bit (d : Datagram) (bit : Bool) (order : BitOrder) :
    Except Unit Datagram :=
  if d.length_in_bit = 127 then
    .error ()
  else
    .ok
      { length_in_bit := d.length_in_bit + 1
        buffer :=
          match order with
          | .BigEndian => (2 * d.buffer + bit.toNat) % 2 ^ 128
          | .LittleEndian =>
              (d.buffer + bit.toNat * 2 ^ d.length_in_bit) % 2 ^ 128 }

/-- Datagram::len from the source. -/
def Datagram.len (d : Datagram) : Nat := d.length_in_bit

/-- Datagram::is_empty from the source. -/
def Datagram.is_empty (d : Datagram) : Bool := 0 == d.length_in_bit

/-- Index access from the source (`impl Index<u8> for Datagram`): panics
(modelled as `none`) when the index is at least the length, otherwise
returns 1 or 0 according to whether `1 << index` intersects the buffer. -/
def Datagram.index (d : Datagram) (i : Nat) : Option Nat :=
  if d.length_in_bit ≤ i then none
  else some (if (1 <<< i) &&& d.buffer = 0 then 0 else 1)

/-- Bit test used by the iterator models: whether `datagram[i]` would
read 1.  Equals the i-th binary digit of the packed buffer. -/
def Datagram.testBitAt (d : Datagram) (i : Nat) : Bool :=
  d.buffer.testBit i

/-- Appending a list of bits one by one with Datagram::add_bit,
propagating the capacity error. -/
def addBits (order : BitOrder) : Datagram → List Bool → Except Unit Datagram
  | d, [] => .ok d
  | d, b :: rest =>
    match d.add_bit b order with
    | .error e => .error e
    | .ok d1 => addBits order d1 rest

/-- Bits yielded by DatagramBigEndianIterator starting at `i`:
`datagram[i-1], ..., datagram[0]`. -/
def bigEndianBitsFrom (d : Datagram) : Nat → List Bool
  | 0 => []
  | i + 1 => d.testBitAt i :: bigEndianBitsFrom d i

/-- Full output of Datagram::into_big_endian_iter, as a list: the bits at
positions length-1 down to 0. -/
def Datagram.bigEndianList (d : Datagram) : List Bool :=
  bigEndianBitsFrom d d.length_in_bit

/-- Full output of Datagram::into_little_endian_iter, as a list: the bits
at positions 0 up to length-1. -/
def Datagram.littleEndianList (d : Datagram) : List Bool :=
  (List.range d.length_in_bit).map d.testBitAt

/-- Traversal order selection: the list of bits the chosen datagram
iterator yields. -/
def Datagram.traversalList (d : Datagram) (order : BitOrder) : List Bool :=
  match order with
  | .BigEndian => d.bigEndianList
  | .LittleEndian => d.littleEndianList

/-- Encoder state from the source.  The datagram iterator is embedded as
the list of bits it has still to yield. -/
structure Encoder where
  datagram_iter : List Bool
  first_half_bit : Bool
  last_value : Option Bool
deriving DecidableEq, Repr

/-- Encoder::new from the source: pulls the first value of the iterator
into `last_value`. -/
def Encoder.new (bits : List Bool) : Encoder :=
  { datagram_iter := bits.tail
    first_half_bit := true
    last_value := bits.head? }

/-- Encoder::next from the source: emits the negation of the current bit
for the first half, the bit itself for the second half, then advances the
iterator; yields nothing once the iterator is exhausted. -/
def Encoder.next (e : Encoder) : Option Bool × Encoder :=
  match e.last_value with
  | some bit =>
    if e.first_half_bit then
      (some !bit, { e with first_half_bit := false })
    else
      (some bit,
        { e with
          first_half_bit := true
          datagram_iter := e.datagram_iter.tail
          last_value := e.datagram_iter.head? })
  | none => (none, e)

/-- Results of `k` successive Encoder::next calls. -/
def Encoder.callResults (e : Encoder) : Nat → List (Option Bool)
  | 0 => []
  | k + 1 =>
    let r := e.next
    r.1 :: r.2.callResults k

/-- Manchester expansion of a bit list: two signal levels per bit, the
first half the negation of the bit, the second half the bit itself. -/
def manchester (bits : List Bool) : List Bool :=
  bits.flatMap fun b => [!b, b]

/-- Levels produced by running the Encoder (built over the traversal list
of the datagram in the given order) to exhaustion. -/
def encoderLevels (order : BitOrder) (d : Datagram) : List Bool :=
  ((Encoder.new (d.traversalList order)).callResults
      (2 * (d.traversalList order).length)).reduceOption

def SAMPLES_PER_HALF_BIT_PERIOD : Nat := 3
def TOLERANCE : Nat := 1
def LOWER_BARRIER : Nat := 2 * SAMPLES_PER_HALF_BIT_PERIOD - TOLERANCE
def UPPER_BARRIER : Nat := 2 * SAMPLES_PER_HALF_BIT_PERIOD + TOLERANCE
def NO_EDGE_EXIT_LIMIT : Nat := 3 * SAMPLES_PER_HALF_BIT_PERIOD

/-- Decoder state from the source.  The u8 distance counters are embedded
as Nat; the proved clamping invariant keeps them at most 9, far below the
u8 range, so Nat increments and u8 increments agree on every state the
theorems speak about. -/
structure Decoder where
  activity_level : ActivityLevel
  sync_on_turning_edge : SyncOnTurningEdge
  bit_order : BitOrder
  datagram : Datagram
  previous_sample : Bool
  edge_distance : Nat
  recording_distance : Nat
  receiving_started : Bool
  record_marker_reached : Bool
deriving DecidableEq, Repr

/-- Decoder::new from the source: previous sample initialised to the
inactivity level, both distance counters to NO_EDGE_EXIT_LIMIT. -/
def Decoder.new (activity_level : ActivityLevel)
    (sync_on_turning_edge : SyncOnTurningEdge) (bit_order : BitOrder) :
    Decoder :=
  { activity_level := activity_level
    sync_on_turning_edge := sync_on_turning_edge
    bit_order := bit_order
    datagram := ⟨0, 0⟩
    previous_sample :=
      match activity_level with
      | .High => false
      | .Low => true
    edge_distance := NO_EDGE_EXIT_LIMIT
    recording_distance := NO_EDGE_EXIT_LIMIT
    receiving_started := false
    record_marker_reached := false }

/-- The steady level observed when no datagram is transmitted: the
negation of the activity level. -/
def idleLevel : ActivityLevel → Bool
  | .High => false
  | .Low => true

/-- First phase of Decoder::next (steps 1-3 of the sampling algorithm):
edge detection, reception-start decision, record-marker decision and the
bit append (whose panicking unwrap on a full datagram is the `none`
case); on a non-edge sample both distance counters are incremented. -/
def Decoder.edgePhase (d : Decoder) (sample : Bool) : Option Decoder :=
  if sample ≠ d.previous_sample then
    let d1 :=
      if ¬ d.receiving_started then
        match d.sync_on_turning_edge with
        | .First =>
          { d with record_marker_reached := true, receiving_started := true }
        | .Second =>
          if d.edge_distance ≤ SAMPLES_PER_HALF_BIT_PERIOD + TOLERANCE then
            { d with record_marker_reached := true, receiving_started := true }
          else d
      else d
    let d2 :=
      if LOWER_BARRIER ≤ d1.recording_distance ∧
          d1.recording_distance ≤ UPPER_BARRIER then
        { d1 with record_marker_reached := true }
      else d1
    let d3 : Option Decoder :=
      if d2.record_marker_reached then
        match d2.datagram.add_bit (!sample) d2.bit_order with
        | .error _ => none
        | .ok dg =>
          some
            { d2 with
              datagram := dg
              recording_distance := 1
              record_marker_reached := false }
      else some d2
    d3.map fun d4 => { d4 with previous_sample := sample, edge_distance := 1 }
  else
    some
      { d with
        edge_distance := d.edge_distance + 1
        recording_distance := d.recording_distance + 1 }

/-- Second phase of Decoder::next (step 4, end-of-frame test) plus the
clamp of the recording counter: when the edge distance exceeds
NO_EDGE_EXIT_LIMIT, a non-empty accumulator sampled at the inactivity
level is returned and reception stops; the accumulator is reset and the
edge counter pulled back in every exit case. -/
def Decoder.exitPhase (sample : Bool) (da : Decoder) :
    Option Datagram × Decoder :=
  let withExit : Option Datagram × Decoder :=
    if NO_EDGE_EXIT_LIMIT < da.edge_distance then
      let hit :=
        if ¬ da.datagram.is_empty ∧
            xor sample (da.activity_level = ActivityLevel.High) then
          (some da.datagram, { da with receiving_started := false })
        else (none, da)
      (hit.1,
        { hit.2 with
          datagram := Datagram.emptyDG
          edge_distance := da.edge_distance - 1 })
    else (none, da)
  let db := withExit.2
  (withExit.1,
    if NO_EDGE_EXIT_LIMIT < db.recording_distance then
      { db with recording_distance := db.recording_distance - 1 }
    else db)

/-- Decoder::next from the source, one periodic sample.  Returns `none`
for the panicking `unwrap` on a full datagram; otherwise `some (r, d')`
with `r` the optional completed datagram and `d'` the updated state. -/
def Decoder.next (d : Decoder) (sample : Bool) :
    Option (Option Datagram × Decoder) :=
  (d.edgePhase sample).map (Decoder.exitPhase sample)

/-- Run the decoder over a list of samples, collecting the completed
datagrams in order; `none` if any step panics. -/
def Decoder.run (d : Decoder) : List Bool → Option (List Datagram × Decoder)
  | [] => some ([], d)
  | s :: rest =>
    match d.next s with
    | none => none
    | some (r, d1) =>
      match d1.run rest with
      | none => none
      | some (outs, d2) => some (r.toList ++ outs, d2)

/-- InfraredEmitter state from the source.  The PWM peripheral is
external; only the boolean enabled/disabled drive it receives is kept
(`pwm_enabled`), the set_duty intensity call has no observable state
here.  The pause counter embeds the u8 field. -/
structure InfraredEmitter where
  encoder : Option Encoder
  max_pause_cycles : Nat
  current_pause_cycles : Nat
  pwm_enabled : Bool
deriving DecidableEq, Repr

/-- InfraredEmitter::new from the source. -/
def InfraredEmitter.new (pause_cycles : Nat) : InfraredEmitter :=
  { encoder := none
    max_pause_cycles := pause_cycles
    current_pause_cycles := 0
    pwm_enabled := false }

/-- InfraredEmitter::send_half_bit from the source.  While an encoder is
attached its next half bit drives the PWM, exhaustion detaches the
encoder and zeroes the pause counter; while idle the u8 pause counter is
incremented with an unguarded addition, modelled checked: `none` when the
increment leaves the u8 range. -/
def InfraredEmitter.send_half_bit (em : InfraredEmitter) :
    Option InfraredEmitter :=
  match em.encoder with
  | some enc =>
    match enc.next with
    | (some half_bit, enc1) =>
        some { em with encoder := some enc1, pwm_enabled := half_bit }
    | (none, _) =>
        some
          { em with
            encoder := none
            pwm_enabled := false
            current_pause_cycles := 0 }
  | none =>
    if em.current_pause_cycles + 1 ≤ 255 then
      some { em with current_pause_cycles := em.current_pause_cycles + 1 }
    else none

/-- InfraredEmitter::send_if_possible from the source (both the big- and
little-endian impls share this shape; the traversal order selects the
encoder).  Returns false and leaves the state unchanged when the pause
counter is below the configured maximum, otherwise attaches a fresh
encoder for the datagram and returns true.  The set_duty call touches
only the external PWM. -/
def InfraredEmitter.send_if_possible (em : InfraredEmitter) (d : Datagram)
    (order : BitOrder) : Bool × InfraredEmitter :=
  if em.current_pause_cycles < em.max_pause_cycles then
    (false, em)
  else
    (true, { em with encoder := some (Encoder.new (d.traversalList order)) })

/-- Idle ticks: iterate send_half_bit `k` times. -/
def InfraredEmitter.ticks (em : InfraredEmitter) : Nat → Option InfraredEmitter
  | 0 => some em
  | k + 1 =>
    match em.send_half_bit with
    | none => none
    | some em1 => em1.ticks k

/-!  Basic lemmas about the embedded operations. -/

/-- Successful add_bit, with the modular reduction removed: a well-formed
datagram below capacity accepts a bit and the packed word stays exact. -/
theorem add_bit_ok (d : Datagram) (b : Bool) (o : BitOrder)
    (hlen : d.length_in_bit ≠ 127) (hcap : d.length_in_bit ≤ 127)
    (hwf : d.buffer < 2 ^ d.length_in_bit) :
    d.add_bit b o =
      .ok
        { length_in_bit := d.length_in_bit + 1
          buffer :=
            match o with
            | .BigEndian => 2 * d.buffer + b.toNat
            | .LittleEndian => d.buffer + b.toNat * 2 ^ d.length_in_bit } := by
  have hlt : d.length_in_bit ≤ 126 := by omega
  have hb : b.toNat ≤ 1 := Bool.toNat_le b
  have hpow : (2 : Nat) ^ d.length_in_bit ≤ 2 ^ 126 :=
    Nat.pow_le_pow_right (by norm_num) hlt
  have h128 : (2 : Nat) ^ 126 < 2 ^ 128 := by norm_num
  unfold Datagram.add_bit
  rw [if_neg hlen]
  cases o with
  | BigEndian =>
    have : 2 * d.buffer + b.toNat < 2 ^ 128 := by
      have : d.buffer < 2 ^ 126 := lt_of_lt_of_le hwf hpow
      omega
    simp only [Nat.mod_eq_of_lt this]
  | LittleEndian =>
    have : d.buffer + b.toNat * 2 ^ d.length_in_bit < 2 ^ 128 := by
      have h1 : d.buffer < 2 ^ 126 := lt_of_lt_of_le hwf hpow
      have h2 : b.toNat * 2 ^ d.length_in_bit ≤ 2 ^ 126 := by
        calc b.toNat * 2 ^ d.length_in_bit ≤ 1 * 2 ^ d.length_in_bit :=
              Nat.mul_le_mul_right _ hb
          _ ≤ 2 ^ 126 := by simpa using hpow
      omega
    simp only [Nat.mod_eq_of_lt this]

/-- An exhausted encoder keeps yielding nothing without changing state. -/
theorem encoder_exhausted (e : Encoder) (h : e.last_value = none) :
    ∀ k, e.callResults k = List.replicate k none := by
  intro k
  induction k with
  | zero => rfl
  | succ k ih =>
    simp only [Encoder.callResults, Encoder.next, h, List.replicate_succ]
    exact congrArg _ ih

/-- Core encoder behaviour: over any bit list, `2 * length` calls produce
the manchester expansion (first half negated, second half plain) and all
later calls produce nothing. -/
theorem encoder_callResults_spec (bits : List Bool) (k : Nat) :
    (Encoder.new bits).callResults (2 * bits.length + k) =
      (manchester bits).map some ++ List.replicate k none := by
  induction bits generalizing k with
  | nil =>
    simp only [List.length_nil, Nat.mul_zero, Nat.zero_add, manchester,
      List.flatMap_nil, List.map_nil, List.nil_append]
    exact encoder_exhausted _ rfl k
  | cons b bs ih =>
    have hlen : 2 * (b :: bs).length + k = (2 * bs.length + k) + 1 + 1 := by
      simp [List.length_cons]; ring
    rw [hlen]
    have h1 : (Encoder.new (b :: bs)).callResults ((2 * bs.length + k) + 1 + 1) =
        some (!b) :: some b :: (Encoder.new bs).callResults (2 * bs.length + k) := by
      simp [Encoder.callResults, Encoder.next, Encoder.new]
    rw [h1, ih]
    simp [manchester]

/-- Running the decoder over a concatenation: run the first part, then the
second from the reached state, concatenating the outputs. -/
theorem run_append (d : Decoder) (xs ys : List Bool) :
    d.run (xs ++ ys) =
      (d.run xs).bind fun p =>
        (p.2.run ys).map fun q => (p.1 ++ q.1, q.2) := by
  induction xs generalizing d with
  | nil =>
    simp only [List.nil_append, Decoder.run, Option.bind]
    cases d.run ys with
    | none => rfl
    | some q => rfl
  | cons s rest ih =>
    simp only [List.cons_append, Decoder.run]
    cases d.next s with
    | none => rfl
    | some p =>
      obtain ⟨r, d1⟩ := p
      have hra : rest.append ys = rest ++ ys := rfl
      simp only [hra, ih d1]
      cases d1.run rest with
      | none => rfl
      | some q =>
        obtain ⟨outs1, d2⟩ := q
        cases hw : d2.run ys <;>
          simp [Option.bind, Option.map, hw, List.append_assoc]

/-- A decoder state that absorbs a constant stream at its previous sample
level: empty accumulator, both counters at the clamp value. -/
def Absorbing (lvl : Bool) (d : Decoder) : Prop :=
  d.previous_sample = lvl ∧ d.edge_distance = 9 ∧
    d.recording_distance = 9 ∧ d.datagram = ⟨0, 0⟩

instance (lvl : Bool) (d : Decoder) : Decidable (Absorbing lvl d) := by
  unfold Absorbing; infer_instance

/-- One more sample at the absorbed level neither produces output nor
changes the state. -/
theorem next_absorbing (lvl : Bool) (d : Decoder) (h : Absorbing lvl d) :
    d.next lvl = some (none, d) := by
  obtain ⟨al, so, bo, dg, ps, ed, rd, rs, rm⟩ := d
  obtain ⟨hp, he, hr, hd⟩ := h
  simp only at hp he hr hd
  subst hp he hr hd
  simp [Decoder.next, Decoder.edgePhase, Decoder.exitPhase,
    NO_EDGE_EXIT_LIMIT, SAMPLES_PER_HALF_BIT_PERIOD,
    Datagram.is_empty, Datagram.emptyDG]

/-- A constant stream at the absorbed level produces no datagram and ends
in the same state. -/
theorem run_absorbing (lvl : Bool) (d : Decoder) (h : Absorbing lvl d) :
    ∀ k, d.run (List.replicate k lvl) = some ([], d) := by
  intro k
  induction k with
  | zero => rfl
  | succ k ih =>
    simp [List.replicate_succ, Decoder.run, next_absorbing lvl d h, ih]

/-- A fresh decoder absorbs its configured inactivity level. -/
theorem new_absorbing (a : ActivityLevel) (s : SyncOnTurningEdge)
    (o : BitOrder) : Absorbing (idleLevel a) (Decoder.new a s o) := by
  cases a <;> exact ⟨rfl, rfl, rfl, rfl⟩

/-- C9: feeding a freshly constructed decoder any number of samples at the
configured inactivity level (the only constant stream containing no edge)
never produces a datagram and leaves the decoder, in particular its empty
accumulator, exactly as constructed after every call. -/
theorem C9_idle_stream_inert (a : ActivityLevel) (s : SyncOnTurningEdge)
    (o : BitOrder) (k : Nat) :
    (Decoder.new a s o).run (List.replicate k (idleLevel a)) =
      some ([], Decoder.new a s o) :=
  run_absorbing _ _ (new_absorbing a s o) k

/-- C5: over the traversal list of any datagram in either order (a list
whose length is the datagram length), the encoder yields exactly two
values per source bit - the negation of the bit then the bit itself, in
traversal order - and every call after the 2*length-th yields nothing. -/
theorem C5_encoder_output (d : Datagram) (o : BitOrder) (k : Nat) :
    (d.traversalList o).length = d.length_in_bit ∧
      (Encoder.new (d.traversalList o)).callResults
          (2 * (d.traversalList o).length + k) =
        ((d.traversalList o).flatMap fun b => [!b, b]).map some ++
          List.replicate k none := by
  constructor
  · cases o with
    | BigEndian =>
      show (bigEndianBitsFrom d d.length_in_bit).length = _
      generalize d.length_in_bit = n
      induction n with
      | zero => rfl
      | succ n ih => simpa [bigEndianBitsFrom] using ih
    | LittleEndian => simp [Datagram.traversalList, Datagram.littleEndianList]
  · exact encoder_callResults_spec _ k

/-- C10: while idle, each send_half_bit call increments the u8 pause
counter with an unguarded addition; from a fresh emitter 255 idle ticks
drive the counter to 255 and the 256-th tick overflows (checked u8
increment out of range, modelled as `none`). -/
theorem C10_pause_counter_overflow (maxP : Nat) :
    (InfraredEmitter.new maxP).ticks 255 =
      some
        { encoder := none
          max_pause_cycles := maxP
          current_pause_cycles := 255
          pwm_enabled := false } ∧
      (InfraredEmitter.new maxP).ticks 256 = none := by
  have key : ∀ k c, c + k ≤ 255 →
      InfraredEmitter.ticks
          { encoder := none, max_pause_cycles := maxP,
            current_pause_cycles := c, pwm_enabled := false } k =
        some
          { encoder := none, max_pause_cycles := maxP,
            current_pause_cycles := c + k, pwm_enabled := false } := by
    intro k
    induction k with
    | zero => intro c _; rfl
    | succ k ih =>
      intro c hc
      have hc1 : c + 1 ≤ 255 := by omega
      simp only [InfraredEmitter.ticks, InfraredEmitter.send_half_bit,
        if_pos hc1]
      rw [ih (c + 1) (by omega)]
      have harith : c + 1 + k = c + (k + 1) := by omega
      rw [harith]
  have hsplit : ∀ j i : Nat, ∀ em : InfraredEmitter,
      em.ticks (j + i) = (em.ticks j).bind fun e => e.ticks i := by
    intro j
    induction j with
    | zero => intro i em; simp [InfraredEmitter.ticks]
    | succ j ih =>
      intro i em
      have h1 : j + 1 + i = (j + i) + 1 := by omega
      rw [h1]
      cases hsb : em.send_half_bit with
      | none => simp [InfraredEmitter.ticks, hsb]
      | some e1 => simp [InfraredEmitter.ticks, hsb, ih i e1]
  have key0 : (InfraredEmitter.new maxP).ticks 255 =
      some
        { encoder := none, max_pause_cycles := maxP,
          current_pause_cycles := 255, pwm_enabled := false } := by
    have := key 255 0 (by omega)
    simpa [InfraredEmitter.new] using this
  refine ⟨key0, ?_⟩
  rw [show (256 : Nat) = 255 + 1 from rfl, hsplit 255 1, key0]
  simp [InfraredEmitter.ticks, InfraredEmitter.send_half_bit]

/-- C6: send_if_possible checks only the pause counter, never whether an
encoder is still attached.  From a fresh emitter with minimum pause 3,
three idle ticks allow a first send (true); calling send_if_possible
again immediately - while the first transmission is still in progress -
also returns true and silently replaces the in-flight encoder.  This
contradicts the source documentation "Sending is possible iff there is no
sending procedure in progress". -/
theorem C6_send_if_possible_ignores_sending :
    ((InfraredEmitter.new 3).ticks 3).map
        (fun e => e.send_if_possible ⟨1, 1⟩ .BigEndian) =
      some
        (true,
          { encoder := some (Encoder.new ((⟨1, 1⟩ : Datagram).traversalList .BigEndian))
            max_pause_cycles := 3
            current_pause_cycles := 3
            pwm_enabled := false }) ∧
      ({ encoder := some (Encoder.new ((⟨1, 1⟩ : Datagram).traversalList .BigEndian))
         max_pause_cycles := 3
         current_pause_cycles := 3
         pwm_enabled := false } : InfraredEmitter).encoder.isSome = true ∧
      (({ encoder := some (Encoder.new ((⟨1, 1⟩ : Datagram).traversalList .BigEndian))
          max_pause_cycles := 3
          current_pause_cycles := 3
          pwm_enabled := false } : InfraredEmitter).send_if_possible
          ⟨2, 1⟩ .BigEndian).1 = true ∧
      (({ encoder := some (Encoder.new ((⟨1, 1⟩ : Datagram).traversalList .BigEndian))
          max_pause_cycles := 3
          current_pause_cycles := 3
          pwm_enabled := false } : InfraredEmitter).send_if_possible
          ⟨2, 1⟩ .BigEndian).2.encoder =
        some (Encoder.new ((⟨2, 1⟩ : Datagram).traversalList .BigEndian)) := by
  refine ⟨?_, rfl, rfl, rfl⟩
  rfl

/-!  Packed-buffer arithmetic: the value built by repeated add_bit. -/

/-- Value of a bit list read as a binary numeral, first element most
significant (what repeated BigEndian add_bit builds). -/
def beVal (bits : List Bool) : Nat :=
  bits.foldl (fun a b => 2 * a + b.toNat) 0

/-- Value of a bit list read as a binary numeral, first element least
significant (what repeated LittleEndian add_bit builds). -/
def leVal (bits : List Bool) : Nat :=
  bits.foldr (fun b acc => b.toNat + 2 * acc) 0

theorem foldl_mul_add (bits : List Bool) (init : Nat) :
    bits.foldl (fun a b => 2 * a + b.toNat) init =
      init * 2 ^ bits.length + beVal bits := by
  induction bits generalizing init with
  | nil => simp [beVal]
  | cons b bs ih =>
    have hbe : beVal (b :: bs) = b.toNat * 2 ^ bs.length + beVal bs := by
      show List.foldl _ (2 * 0 + b.toNat) bs = _
      rw [ih]
      ring_nf
    simp only [List.foldl_cons, List.length_cons, hbe, ih]
    ring

theorem beVal_append_singleton (bs : List Bool) (b : Bool) :
    beVal (bs ++ [b]) = 2 * beVal bs + b.toNat := by
  unfold beVal
  rw [List.foldl_append]
  rfl

theorem beVal_lt (bits : List Bool) : beVal bits < 2 ^ bits.length := by
  induction bits using List.reverseRecOn with
  | nil => simp [beVal]
  | append_singleton bs b ih =>
    rw [beVal_append_singleton]
    have hb : b.toNat ≤ 1 := Bool.toNat_le b
    have hlen : (bs ++ [b]).length = bs.length + 1 := by simp
    rw [hlen]
    have h2 : (2 : Nat) ^ (bs.length + 1) = 2 * 2 ^ bs.length := by ring
    omega

theorem leVal_lt (bits : List Bool) : leVal bits < 2 ^ bits.length := by
  induction bits with
  | nil => simp [leVal]
  | cons b bs ih =>
    have hb : b.toNat ≤ 1 := Bool.toNat_le b
    have hstep : leVal (b :: bs) = b.toNat + 2 * leVal bs := rfl
    have : (2 : Nat) ^ (b :: bs).length = 2 * 2 ^ bs.length := by
      simp [List.length_cons]; ring
    omega

theorem testBit_leVal (bits : List Bool) :
    ∀ i, (leVal bits).testBit i = bits.getD i false := by
  induction bits with
  | nil => intro i; simp [leVal]
  | cons b bs ih =>
    intro i
    have hstep : leVal (b :: bs) = b.toNat + 2 * leVal bs := rfl
    cases i with
    | zero =>
      rw [hstep, Nat.testBit_zero]
      cases b <;> simp [Nat.add_mul_mod_self_left]
    | succ i =>
      rw [hstep, Nat.testBit_add_one]
      have hdiv : (b.toNat + 2 * leVal bs) / 2 = leVal bs := by
        cases b <;> simp <;> omega
      rw [hdiv]
      simpa using ih i

theorem testBit_beVal (bits : List Bool) :
    ∀ i, i < bits.length →
      (beVal bits).testBit i = bits.getD (bits.length - 1 - i) false := by
  induction bits using List.reverseRecOn with
  | nil => intro i hi; simp at hi
  | append_singleton bs b ih =>
    intro i hi
    rw [beVal_append_singleton]
    have hlen : (bs ++ [b]).length = bs.length + 1 := by simp
    cases i with
    | zero =>
      rw [Nat.testBit_zero]
      have hget : (bs ++ [b]).getD ((bs ++ [b]).length - 1 - 0) false = b := by
        rw [hlen]
        simp [List.getD_eq_getElem?_getD, List.getElem?_append_right]
      rw [hget]
      cases b <;> simp <;> omega
    | succ i =>
      rw [Nat.testBit_add_one]
      have hdiv : (2 * beVal bs + b.toNat) / 2 = beVal bs := by
        cases b <;> simp <;> omega
      rw [hdiv]
      have hi' : i < bs.length := by
        rw [hlen] at hi; omega
      rw [ih i hi']
      have hidx : (bs ++ [b]).length - 1 - (i + 1) = bs.length - 1 - i := by
        rw [hlen]; omega
      rw [hidx]
      have hlt : bs.length - 1 - i < bs.length := by omega
      simp [List.getD_eq_getElem?_getD, List.getElem?_append_left hlt]

/-- Index access in range reads the corresponding binary digit of the
packed word. -/
theorem index_eq_testBit (d : Datagram) (i : Nat) (h : i < d.length_in_bit) :
    d.index i = some (d.buffer.testBit i).toNat := by
  unfold Datagram.index
  rw [if_neg (by omega)]
  have hshift : (1 <<< i : Nat) = 2 ^ i := by
    rw [Nat.shiftLeft_eq, one_mul]
  rw [hshift, Nat.two_pow_and]
  have hpow : (0 : Nat) < 2 ^ i := Nat.pos_pow_of_pos i (by norm_num)
  cases hb : d.buffer.testBit i <;> simp [hb, Nat.pos_iff_ne_zero.mp hpow]

/-- Appending bits BigEndian: always succeeds below capacity, building the
binary value with the first appended bit most significant. -/
theorem addBits_be_ok (bits : List Bool) (dg : Datagram)
    (hcap : dg.length_in_bit + bits.length ≤ 127)
    (hwf : dg.buffer < 2 ^ dg.length_in_bit) :
    addBits .BigEndian dg bits =
      .ok ⟨dg.length_in_bit + bits.length,
        dg.buffer * 2 ^ bits.length + beVal bits⟩ := by
  induction bits generalizing dg with
  | nil =>
    obtain ⟨L, buf⟩ := dg
    simp [addBits, beVal]
  | cons b rest ih =>
    have hlen : dg.length_in_bit ≠ 127 := by
      simp only [List.length_cons] at hcap; omega
    have hcap' : dg.length_in_bit ≤ 127 := by
      simp only [List.length_cons] at hcap; omega
    have hok := add_bit_ok dg b .BigEndian hlen hcap' hwf
    simp only [addBits, hok]
    have hwf' : 2 * dg.buffer + b.toNat < 2 ^ (dg.length_in_bit + 1) := by
      have hb : b.toNat ≤ 1 := Bool.toNat_le b
      have : (2 : Nat) ^ (dg.length_in_bit + 1) = 2 * 2 ^ dg.length_in_bit := by
        ring
      omega
    have hcap'' : (dg.length_in_bit + 1) + rest.length ≤ 127 := by
      simp only [List.length_cons] at hcap; omega
    rw [ih ⟨dg.length_in_bit + 1, 2 * dg.buffer + b.toNat⟩ hcap'' hwf']
    have hbe : beVal (b :: rest) = b.toNat * 2 ^ rest.length + beVal rest := by
      show List.foldl _ (2 * 0 + b.toNat) rest = _
      rw [foldl_mul_add]
      ring_nf
    simp only [List.length_cons, hbe]
    congr 2
    · omega
    · ring

/-- Appending bits LittleEndian: always succeeds below capacity, building
the binary value with the first appended bit least significant. -/
theorem addBits_le_ok (bits : List Bool) (dg : Datagram)
    (hcap : dg.length_in_bit + bits.length ≤ 127)
    (hwf : dg.buffer < 2 ^ dg.length_in_bit) :
    addBits .LittleEndian dg bits =
      .ok ⟨dg.length_in_bit + bits.length,
        dg.buffer + leVal bits * 2 ^ dg.length_in_bit⟩ := by
  induction bits generalizing dg with
  | nil =>
    obtain ⟨L, buf⟩ := dg
    simp [addBits, leVal]
  | cons b rest ih =>
    have hlen : dg.length_in_bit ≠ 127 := by
      simp only [List.length_cons] at hcap; omega
    have hcap' : dg.length_in_bit ≤ 127 := by
      simp only [List.length_cons] at hcap; omega
    have hok := add_bit_ok dg b .LittleEndian hlen hcap' hwf
    simp only [addBits, hok]
    have hb : b.toNat ≤ 1 := Bool.toNat_le b
    have hwf' : dg.buffer + b.toNat * 2 ^ dg.length_in_bit <
        2 ^ (dg.length_in_bit + 1) := by
      have : (2 : Nat) ^ (dg.length_in_bit + 1) = 2 * 2 ^ dg.length_in_bit := by
        ring
      nlinarith [hwf]
    have hcap'' : (dg.length_in_bit + 1) + rest.length ≤ 127 := by
      simp only [List.length_cons] at hcap; omega
    rw [ih ⟨dg.length_in_bit + 1, dg.buffer + b.toNat * 2 ^ dg.length_in_bit⟩
      hcap'' hwf']
    have hle : leVal (b :: rest) = b.toNat + 2 * leVal rest := rfl
    simp only [List.length_cons, hle]
    congr 2
    · omega
    · ring

/-- C8: Datagram::add_bit fails with the capacity error exactly when the
current length is 127; otherwise it succeeds, increments the length by
one, and packs the new bit at the least significant position after
shifting everything up (BigEndian) or at the most significant occupied
position `length_in_bit` (LittleEndian). -/
theorem C8_add_bit_spec (d : Datagram) (b : Bool) (o : BitOrder)
    (hcap : d.length_in_bit ≤ 127)
    (hwf : d.buffer < 2 ^ d.length_in_bit) :
    (d.add_bit b o = .error () ↔ d.length_in_bit = 127) ∧
      (d.length_in_bit ≠ 127 →
        d.add_bit b o =
          .ok
            { length_in_bit := d.length_in_bit + 1
              buffer :=
                match o with
                | .BigEndian => 2 * d.buffer + b.toNat
                | .LittleEndian =>
                    d.buffer + b.toNat * 2 ^ d.length_in_bit }) := by
  constructor
  · constructor
    · intro herr
      by_contra hne
      rw [add_bit_ok d b o hne hcap hwf] at herr
      exact Except.noConfusion herr
    · intro h127
      unfold Datagram.add_bit
      rw [if_pos h127]
  · intro hne
    exact add_bit_ok d b o hne hcap hwf

/-- C8 witness: a concrete three-bit datagram accepts a fourth bit in each
order, and a full one errors. -/
theorem C8_add_bit_witness :
    ((3 : Nat) ≤ 127 ∧ (5 : Nat) < 2 ^ 3) ∧
      ((Datagram.add_bit ⟨3, 5⟩ true .BigEndian = .error () ↔ (3 : Nat) = 127) ∧
        ((3 : Nat) ≠ 127 →
          Datagram.add_bit ⟨3, 5⟩ true .BigEndian = .ok ⟨4, 11⟩)) :=
  ⟨⟨by norm_num, by norm_num⟩, C8_add_bit_spec ⟨3, 5⟩ true .BigEndian
    (by norm_num) (by norm_num)⟩

/-- Logical reading of the amended C2: position i holds the i-th appended
bit under LittleEndian packing, and the (length-1-i)-th appended bit under
BigEndian packing. -/
def logicalBit (o : BitOrder) (bits : List Bool) (i : Nat) : Bool :=
  match o with
  | .LittleEndian => bits.getD i false
  | .BigEndian => bits.getD (bits.length - 1 - i) false

/-- C2 amended: appending at most 127 bits always succeeds, and the index
operator at logical position i returns the i-th appended bit for
LittleEndian order but the (length-1-i)-th appended bit for BigEndian
order (BigEndian add_bit puts each new bit at index 0, shifting earlier
bits up, so position 0 is the most recently appended bit). -/
theorem C2_logical_index_amended (o : BitOrder) (bits : List Bool)
    (h : bits.length ≤ 127) :
    ∃ dg, addBits o Datagram.emptyDG bits = .ok dg ∧
      dg.length_in_bit = bits.length ∧
      ∀ i, i < bits.length → dg.index i = some (logicalBit o bits i).toNat := by
  cases o with
  | BigEndian =>
    have hok := addBits_be_ok bits Datagram.emptyDG
      (by show (0 : Nat) + bits.length ≤ 127; omega)
      (by simp [Datagram.emptyDG])
    refine ⟨_, hok, by simp [Datagram.emptyDG], ?_⟩
    intro i hi
    have hidx := index_eq_testBit
      ⟨Datagram.emptyDG.length_in_bit + bits.length,
        Datagram.emptyDG.buffer * 2 ^ bits.length + beVal bits⟩ i
      (by simp [Datagram.emptyDG]; omega)
    rw [hidx]
    simp only [Datagram.emptyDG] at *
    rw [show (0 * 2 ^ bits.length + beVal bits : Nat) = beVal bits by ring]
    rw [testBit_beVal bits i hi]
    rfl
  | LittleEndian =>
    have hok := addBits_le_ok bits Datagram.emptyDG
      (by show (0 : Nat) + bits.length ≤ 127; omega)
      (by simp [Datagram.emptyDG])
    refine ⟨_, hok, by simp [Datagram.emptyDG], ?_⟩
    intro i hi
    have hidx := index_eq_testBit
      ⟨Datagram.emptyDG.length_in_bit + bits.length,
        Datagram.emptyDG.buffer + leVal bits * 2 ^ Datagram.emptyDG.length_in_bit⟩
      i (by simp [Datagram.emptyDG]; omega)
    rw [hidx]
    simp only [Datagram.emptyDG] at *
    rw [show (0 + leVal bits * 2 ^ 0 : Nat) = leVal bits by ring]
    rw [testBit_leVal bits i]
    rfl

/-- C2 witness: three appended bits, read back through the amended rule. -/
theorem C2_logical_index_witness :
    ∃ dg, addBits .LittleEndian Datagram.emptyDG [true, false, true] = .ok dg ∧
      dg.length_in_bit = 3 ∧
      ∀ i, i < 3 →
        dg.index i = some (logicalBit .LittleEndian [true, false, true] i).toNat :=
  C2_logical_index_amended .LittleEndian [true, false, true] (by norm_num)

/-- The reading discipline the claim asserts, as a checkable function:
after appending the bits in the given order, every logical position reads
back the bit appended at that position. -/
def indexReadsReceptionOrder (o : BitOrder) (bits : List Bool) : Bool :=
  match addBits o Datagram.emptyDG bits with
  | .ok dg =>
    (List.range bits.length).all fun i =>
      dg.index i == some (bits.getD i false).toNat
  | .error _ => true

/-- C2 counterexample: appending true then false with BigEndian order
packs the buffer as 0b10, so index 0 reads 0 - the bit appended last, not
the bit appended first as the claim states for both orders. -/
theorem C2_reception_order_counterexample :
    indexReadsReceptionOrder .BigEndian [true, false] = false ∧
      addBits .BigEndian Datagram.emptyDG [true, false] = .ok ⟨2, 2⟩ ∧
      Datagram.index ⟨2, 2⟩ 0 = some 0 ∧
      Datagram.index ⟨2, 2⟩ 1 = some 1 :=
  ⟨rfl, rfl, rfl, rfl⟩

/-- The acceptance test of the source, `sample ^ (activity_level ==
High)`, holds exactly when the sample is at the configured inactivity
level. -/
theorem xor_activity_iff_idle (a : ActivityLevel) (s : Bool) :
    (xor s (decide (a = ActivityLevel.High)) = true) ↔ s = idleLevel a := by
  cases a <;> cases s <;> simp [idleLevel]

/-- End-of-frame behaviour of the exit phase once the edge counter is
above the limit: return the accumulator and stop reception when it is
non-empty and the sample is at the inactivity level, otherwise return
nothing and leave receiving_started untouched; the accumulator is reset
either way. -/
theorem exitPhase_exit (s : Bool) (da : Decoder)
    (hgt : NO_EDGE_EXIT_LIMIT < da.edge_distance) :
    (Decoder.exitPhase s da).1 =
        (if ¬ da.datagram.is_empty = true ∧ s = idleLevel da.activity_level
          then some da.datagram else none) ∧
      (Decoder.exitPhase s da).2.datagram = Datagram.emptyDG ∧
      (Decoder.exitPhase s da).2.receiving_started =
        (if ¬ da.datagram.is_empty = true ∧ s = idleLevel da.activity_level
          then false else da.receiving_started) := by
  have hiff : (¬ da.datagram.is_empty = true ∧
        xor s (decide (da.activity_level = ActivityLevel.High)) = true) ↔
      (¬ da.datagram.is_empty = true ∧ s = idleLevel da.activity_level) := by
    constructor
    · rintro ⟨h1, h2⟩; exact ⟨h1, (xor_activity_iff_idle _ s).mp h2⟩
    · rintro ⟨h1, h2⟩; exact ⟨h1, (xor_activity_iff_idle _ s).mpr h2⟩
  by_cases hC : ¬ da.datagram.is_empty = true ∧ s = idleLevel da.activity_level
  · simp only [Decoder.exitPhase, if_pos hgt, if_pos (hiff.mpr hC), if_pos hC]
    refine ⟨by trivial, ?_, ?_⟩ <;> (split <;> rfl)
  · simp only [Decoder.exitPhase, if_pos hgt,
      if_neg (fun hx => hC (hiff.mp hx)), if_neg hC]
    refine ⟨by trivial, ?_, ?_⟩ <;> (split <;> rfl)

/-- C3 amended: whenever a call drives edge_distance above
NO_EDGE_EXIT_LIMIT (a non-edge sample with the counter at the limit): if
the accumulator is non-empty and the sample is at the inactivity level
the call returns the accumulator and clears receiving_started; in every
other such case the call returns nothing and leaves receiving_started
unchanged - it is not cleared.  The accumulator is reset to empty in both
cases. -/
theorem C3_end_of_frame_amended (d : Decoder) (s : Bool)
    (hs : s = d.previous_sample)
    (hd : NO_EDGE_EXIT_LIMIT < d.edge_distance + 1) :
    ∃ d', d.next s = some
        ((if ¬ d.datagram.is_empty = true ∧ s = idleLevel d.activity_level
          then some d.datagram else none), d') ∧
      d'.datagram = Datagram.emptyDG ∧
      d'.receiving_started =
        (if ¬ d.datagram.is_empty = true ∧ s = idleLevel d.activity_level
          then false else d.receiving_started) := by
  have hedge : d.edgePhase s = some
      { d with edge_distance := d.edge_distance + 1
               recording_distance := d.recording_distance + 1 } := by
    unfold Decoder.edgePhase
    rw [if_neg (by simp [hs])]
  set da : Decoder :=
    { d with edge_distance := d.edge_distance + 1
             recording_distance := d.recording_distance + 1 } with hda
  have hx := exitPhase_exit s da (by simpa [hda] using hd)
  refine ⟨(Decoder.exitPhase s da).2, ?_, hx.2.1, hx.2.2⟩
  unfold Decoder.next
  rw [hedge, Option.map_some']
  congr 1
  exact Prod.ext hx.1 rfl

/-- C3 witness: a decoder mid-reception with a one-bit accumulator, the
edge counter at the limit, sampled at the activity level: the frame is
discarded, nothing is returned. -/
theorem C3_end_of_frame_witness :
    ∃ d', Decoder.next ⟨.High, .First, .BigEndian, ⟨1, 0⟩, true, 9, 9,
        true, false⟩ true = some
        ((if ¬ (Datagram.is_empty ⟨1, 0⟩) = true ∧
            true = idleLevel ActivityLevel.High
          then some (⟨1, 0⟩ : Datagram) else none), d') ∧
      d'.datagram = Datagram.emptyDG ∧
      d'.receiving_started =
        (if ¬ (Datagram.is_empty ⟨1, 0⟩) = true ∧
            true = idleLevel ActivityLevel.High
          then false else true) :=
  C3_end_of_frame_amended
    ⟨.High, .First, .BigEndian, ⟨1, 0⟩, true, 9, 9, true, false⟩ true
    (by decide) (by decide)

/-- C3 counterexample: the state below is reachable from a fresh decoder
(high activity, sync on first edge) in nine high samples; the tenth high
sample drives edge_distance to 10, the accumulator is non-empty but the
sample is not at the inactivity level, so the frame is silently dropped -
and receiving_started stays true, where the claim requires it to be
cleared in every such case. -/
theorem C3_receiving_started_counterexample :
    (Decoder.new .High .First .BigEndian).run (List.replicate 9 true) =
        some ([], ⟨.High, .First, .BigEndian, ⟨1, 0⟩, true, 9, 9,
          true, false⟩) ∧
      Decoder.next
          ⟨.High, .First, .BigEndian, ⟨1, 0⟩, true, 9, 9, true, false⟩
          true =
        some (none, ⟨.High, .First, .BigEndian, ⟨0, 0⟩, true, 9, 9,
          true, false⟩) := by
  exact ⟨by decide, by decide⟩

/-- The source condition under which a record marker is established during
a call on an edge sample: a pending marker flag, a qualifying
reception-start edge, or the recording distance inside the barrier
window. -/
def markerEstablished (d : Decoder) (s : Bool) : Prop :=
  s ≠ d.previous_sample ∧
    (d.record_marker_reached = true ∨
      (d.receiving_started = false ∧
        (d.sync_on_turning_edge = .First ∨
          d.edge_distance ≤ SAMPLES_PER_HALF_BIT_PERIOD + TOLERANCE)) ∨
      (LOWER_BARRIER ≤ d.recording_distance ∧
        d.recording_distance ≤ UPPER_BARRIER))

instance (d : Decoder) (s : Bool) : Decidable (markerEstablished d s) := by
  unfold markerEstablished; infer_instance

/-- Whenever a record marker is established on an edge, the edge phase
appends exactly the negation of the current sample through add_bit - no
activity-level translation - and resets both distance counters to 1. -/
theorem edgePhase_records (d : Decoder) (s : Bool)
    (hm : markerEstablished d s)
    (hcap : d.datagram.length_in_bit ≠ 127)
    (hlen : d.datagram.length_in_bit ≤ 127)
    (hwf : d.datagram.buffer < 2 ^ d.datagram.length_in_bit) :
    ∃ da, d.edgePhase s = some da ∧
      d.datagram.add_bit (!s) d.bit_order = .ok da.datagram ∧
      da.edge_distance = 1 ∧ da.recording_distance = 1 := by
  obtain ⟨hne, hm2⟩ := hm
  have hok := add_bit_ok d.datagram (!s) d.bit_order hcap hlen hwf
  cases hsy : d.sync_on_turning_edge <;>
    simp only [Decoder.edgePhase, hsy, hok, if_pos hne] <;>
    split_ifs <;>
    simp_all

/-- C4 amended: whenever a record marker is established during a call,
the bit appended to the accumulator is the plain logical negation of the
current sample, independent of the configured idle/active polarity, and
the call returns nothing. -/
theorem C4_recorded_bit_amended (d : Decoder) (s : Bool)
    (hm : markerEstablished d s)
    (hcap : d.datagram.length_in_bit ≠ 127)
    (hlen : d.datagram.length_in_bit ≤ 127)
    (hwf : d.datagram.buffer < 2 ^ d.datagram.length_in_bit) :
    ∃ d', d.next s = some (none, d') ∧
      d.datagram.add_bit (!s) d.bit_order = .ok d'.datagram := by
  obtain ⟨da, hda, hok, he1, hr1⟩ := edgePhase_records d s hm hcap hlen hwf
  have hexit : Decoder.exitPhase s da = (none, da) := by
    simp only [Decoder.exitPhase, he1, hr1]
    norm_num [NO_EDGE_EXIT_LIMIT, SAMPLES_PER_HALF_BIT_PERIOD]
    intro h
    rw [hr1] at h
    exact absurd h (by norm_num)
  refine ⟨da, ?_, hok⟩
  unfold Decoder.next
  rw [hda, Option.map_some', hexit]

/-- C4 witness: a fresh decoder (high activity, sync on first edge) sees
an edge to high; the marker is established and the appended bit is the
negation of the sample. -/
theorem C4_recorded_bit_witness :
    ∃ d', (Decoder.new .High .First .BigEndian).next true =
        some (none, d') ∧
      (Decoder.new .High .First .BigEndian).datagram.add_bit (!true)
          (Decoder.new .High .First .BigEndian).bit_order = .ok d'.datagram :=
  C4_recorded_bit_amended (Decoder.new .High .First .BigEndian) true
    (by decide) (by decide) (by decide) (by decide)

/-- The recorded value the claim describes: the sample translated through
the configured activity mapping, i.e. inverted relative to the configured
idle/active polarity (equal to the sample being at the inactivity
level). -/
def specRecordedBit (a : ActivityLevel) (s : Bool) : Bool :=
  s == idleLevel a

/-- C4 counterexample: with low activity configured, a fresh decoder
synchronising on an edge to low appends the bit true (the negation of the
sample), while the activity-translated value the claim prescribes is
false - appending it would give a different datagram.  The recorded bit
does not depend on the configured polarity. -/
theorem C4_activity_mapping_counterexample :
    Decoder.next (Decoder.new .Low .First .BigEndian) false =
        some (none,
          { activity_level := .Low
            sync_on_turning_edge := .First
            bit_order := .BigEndian
            datagram := ⟨1, 1⟩
            previous_sample := false
            edge_distance := 1
            recording_distance := 1
            receiving_started := true
            record_marker_reached := false }) ∧
      specRecordedBit ActivityLevel.Low false = false ∧
      Datagram.add_bit Datagram.emptyDG
          (specRecordedBit ActivityLevel.Low false) .BigEndian =
        .ok ⟨1, 0⟩ ∧
      (⟨1, 1⟩ : Datagram) ≠ ⟨1, 0⟩ :=
  ⟨by decide, rfl, rfl, by decide⟩

/-- Decoder states reachable from a fresh decoder by non-panicking calls
to Decoder::next. -/
inductive DecReachable : Decoder → Prop where
  | base (a : ActivityLevel) (s : SyncOnTurningEdge) (o : BitOrder) :
      DecReachable (Decoder.new a s o)
  | step (d : Decoder) (smp : Bool) (r : Option Datagram) (d' : Decoder) :
      DecReachable d → d.next smp = some (r, d') → DecReachable d'

/-- The edge phase raises each distance counter by at most one (an edge
resets them, a plain sample increments them). -/
theorem edgePhase_counter_bounds (d : Decoder) (s : Bool) (da : Decoder)
    (h : d.edgePhase s = some da) :
    da.edge_distance ≤ d.edge_distance + 1 ∧
      da.recording_distance ≤ d.recording_distance + 1 := by
  cases hadd : d.datagram.add_bit (!s) d.bit_order <;>
    cases hsy : d.sync_on_turning_edge <;>
      simp only [Decoder.edgePhase, hsy, hadd] at h <;>
      split_ifs at h <;>
      (try rw [hadd] at h) <;>
      (try simp only [Option.map_some', Option.map_none'] at h) <;>
      first
        | exact Option.noConfusion h
        | (obtain rfl := Option.some.inj h
           constructor <;> simp <;> omega)

/-- The exit phase clamps both counters back to NO_EDGE_EXIT_LIMIT
whenever an increment pushed one past it. -/
theorem exitPhase_counter_bounds (s : Bool) (da : Decoder)
    (he : da.edge_distance ≤ 10) (hr : da.recording_distance ≤ 10) :
    (Decoder.exitPhase s da).2.edge_distance ≤ 9 ∧
      (Decoder.exitPhase s da).2.recording_distance ≤ 9 := by
  simp only [Decoder.exitPhase, NO_EDGE_EXIT_LIMIT, SAMPLES_PER_HALF_BIT_PERIOD]
  split_ifs <;> simp_all <;> omega

/-- One non-panicking step keeps both distance counters at most 9. -/
theorem next_counter_bounds (d : Decoder) (smp : Bool) (r : Option Datagram)
    (d' : Decoder) (he : d.edge_distance ≤ 9) (hr : d.recording_distance ≤ 9)
    (hn : d.next smp = some (r, d')) :
    d'.edge_distance ≤ 9 ∧ d'.recording_distance ≤ 9 := by
  unfold Decoder.next at hn
  cases hep : d.edgePhase smp with
  | none => rw [hep] at hn; exact absurd hn (by simp)
  | some da =>
    rw [hep, Option.map_some'] at hn
    have hb := edgePhase_counter_bounds d smp da hep
    have hx := exitPhase_counter_bounds smp da (by omega) (by omega)
    have hd' : (Decoder.exitPhase smp da).2 = d' := by
      injection hn with h1
      rw [h1]
    rw [hd'] at hx
    exact hx

/-- C7: on every reachable decoder state both distance counters are at
most NO_EDGE_EXIT_LIMIT (= 9), and any non-panicking call keeps them so;
in particular the u8 increments, acting on counters at most 9, never
leave the u8 range. -/
theorem C7_counters_clamped (d : Decoder) (h : DecReachable d) :
    d.edge_distance ≤ NO_EDGE_EXIT_LIMIT ∧
      d.recording_distance ≤ NO_EDGE_EXIT_LIMIT ∧
      d.edge_distance + 1 < 256 ∧ d.recording_distance + 1 < 256 ∧
      ∀ smp r d', d.next smp = some (r, d') →
        d'.edge_distance ≤ NO_EDGE_EXIT_LIMIT ∧
          d'.recording_distance ≤ NO_EDGE_EXIT_LIMIT := by
  have hlim : NO_EDGE_EXIT_LIMIT = 9 := rfl
  have base : d.edge_distance ≤ 9 ∧ d.recording_distance ≤ 9 := by
    induction h with
    | base a s o =>
      constructor <;> simp [Decoder.new, NO_EDGE_EXIT_LIMIT,
        SAMPLES_PER_HALF_BIT_PERIOD]
    | step d0 smp r d' h0 hn ih =>
      exact next_counter_bounds d0 smp r d' ih.1 ih.2 hn
  refine ⟨by omega, by omega, by omega, by omega, ?_⟩
  intro smp r d' hn
  have := next_counter_bounds d smp r d' base.1 base.2 hn
  omega

/-- C7 witness: the bounds instantiated on a freshly constructed
decoder. -/
theorem C7_counters_clamped_witness :
    (Decoder.new .High .First .BigEndian).edge_distance ≤ NO_EDGE_EXIT_LIMIT ∧
      (Decoder.new .High .First .BigEndian).recording_distance ≤
        NO_EDGE_EXIT_LIMIT ∧
      (Decoder.new .High .First .BigEndian).edge_distance + 1 < 256 ∧
      (Decoder.new .High .First .BigEndian).recording_distance + 1 < 256 ∧
      ∀ smp r d',
        (Decoder.new .High .First .BigEndian).next smp = some (r, d') →
          d'.edge_distance ≤ NO_EDGE_EXIT_LIMIT ∧
            d'.recording_distance ≤ NO_EDGE_EXIT_LIMIT :=
  C7_counters_clamped _ (DecReachable.base .High .First .BigEndian)

/-!  Round-trip machinery: encoding a datagram, inverting each emitted
level (an infrared emitter drives the receiver line low when radiating,
so the receiver samples the complement of the encoder level and idles
high), tripling each level into samples, and decoding. -/

/-- Samples the receiver observes for one source bit: the complemented
first half (the bit itself), then the complemented second half. -/
def bitBlock (b : Bool) : List Bool := [b, b, b, !b, !b, !b]

/-- Synchronisation edge matching the first transmitted bit, per the
source's configuration table (activity Low: First decodes a leading one,
Second a leading zero). -/
def syncOf (b : Bool) : SyncOnTurningEdge := if b then .First else .Second

/-- The full receiver-side sample stream for a datagram: every encoder
level complemented and expanded into three samples, then ten trailing
idle (high) samples. -/
def roundTripSamples (d : Datagram) : List Bool :=
  ((encoderLevels .BigEndian d).map fun l => !l).flatMap
      (fun v => List.replicate 3 v) ++
    List.replicate 10 true

/-- The decoder configuration that recovers the datagram: low activity
(idle high), big-endian bit order, synchronisation edge chosen from the
first transmitted bit. -/
def roundTripDecoder (d : Datagram) : Decoder :=
  Decoder.new .Low (syncOf (d.testBitAt (d.length_in_bit - 1))) .BigEndian

/-- Decoder state after the six samples of a completed source bit `b`:
accumulator so far, previous sample at the complemented second half, both
counters at 3. -/
def postBit (sync : SyncOnTurningEdge) (dgA : Datagram) (b : Bool) :
    Decoder :=
  { activity_level := .Low
    sync_on_turning_edge := sync
    bit_order := .BigEndian
    datagram := dgA
    previous_sample := !b
    edge_distance := 3
    recording_distance := 3
    receiving_started := true
    record_marker_reached := false }

/-- Decoder state after a completed frame has been returned and the line
sits idle. -/
def endState (sync : SyncOnTurningEdge) : Decoder :=
  { activity_level := .Low
    sync_on_turning_edge := sync
    bit_order := .BigEndian
    datagram := ⟨0, 0⟩
    previous_sample := true
    edge_distance := 9
    recording_distance := 9
    receiving_started := false
    record_marker_reached := false }

/-- The binary digit at position n, weighted, completes the remainder
below 2 ^ n to the remainder below 2 ^ (n+1). -/
theorem testBit_digit_mod (x n : Nat) :
    (x.testBit n).toNat * 2 ^ n + x % 2 ^ n = x % 2 ^ (n + 1) := by
  have hmul : x % (2 ^ n * 2) = x % 2 ^ n + 2 ^ n * (x / 2 ^ n % 2) :=
    Nat.mod_mul
  have hpow : (2 : Nat) ^ (n + 1) = 2 ^ n * 2 := by ring
  rw [hpow, hmul, Nat.testBit_to_div_mod]
  have h2 : x / 2 ^ n % 2 < 2 := Nat.mod_lt _ (by norm_num)
  by_cases h1 : x / 2 ^ n % 2 = 1
  · simp [h1]; ring
  · have h0 : x / 2 ^ n % 2 = 0 := by omega
    simp [h0, h1]

theorem reduceOption_map_some (l : List Bool) :
    (l.map some).reduceOption = l := by
  induction l with
  | nil => rfl
  | cons b bs ih => simp [List.reduceOption, ih]

/-- The encoder run to exhaustion emits exactly the manchester expansion
of the traversal list. -/
theorem encoderLevels_eq_manchester (o : BitOrder) (d : Datagram) :
    encoderLevels o d = manchester (d.traversalList o) := by
  unfold encoderLevels
  have h := encoder_callResults_spec (d.traversalList o) 0
  rw [Nat.add_zero] at h
  rw [h]
  simp [reduceOption_map_some]

/-- Complementing and tripling the manchester levels groups the stream
into one six-sample block per source bit. -/
theorem invert_triple_eq_blocks (bits : List Bool) :
    ((manchester bits).map fun l => !l).flatMap (fun v => List.replicate 3 v) =
      bits.flatMap bitBlock := by
  induction bits with
  | nil => rfl
  | cons b bs ih =>
    have hman : manchester (b :: bs) = (!b) :: b :: manchester bs := by
      simp [manchester]
    rw [hman]
    simp only [List.map_cons, Bool.not_not, List.flatMap_cons] at *
    rw [ih]
    rfl

/-- The receiver stream is the per-bit block stream of the big-endian
traversal followed by the trailing idle. -/
theorem roundTripSamples_eq (d : Datagram) :
    roundTripSamples d =
      d.bigEndianList.flatMap bitBlock ++ List.replicate 10 true := by
  unfold roundTripSamples
  rw [encoderLevels_eq_manchester]
  show (((manchester d.bigEndianList).map fun l => !l).flatMap
      fun v => List.replicate 3 v) ++ _ = _
  rw [invert_triple_eq_blocks]

/-- Processing the first bit of a frame from the fresh decoder: the
synchronisation edge chosen for that bit locks onto its mid-bit edge and
records it. -/
theorem run_first_block (b : Bool) :
    (Decoder.new .Low (syncOf b) .BigEndian).run (bitBlock b) =
      some ([], postBit (syncOf b) ⟨1, b.toNat⟩ b) := by
  cases b <;> decide

/-- Processing one further bit from the canonical mid-frame state: the
mid-bit edge falls inside the barrier window (recording distance 5 when
the bit repeats the previous one, 6 when it flips) and the bit is
recorded big-endian. -/
theorem run_step_block (sync : SyncOnTurningEdge) (dgA : Datagram)
    (b b' : Bool) (hcap : dgA.length_in_bit ≠ 127)
    (hlen : dgA.length_in_bit ≤ 127)
    (hwf : dgA.buffer < 2 ^ dgA.length_in_bit) :
    (postBit sync dgA b).run (bitBlock b') =
      some ([], postBit sync
        ⟨dgA.length_in_bit + 1, 2 * dgA.buffer + b'.toNat⟩ b') := by
  have hok := add_bit_ok dgA b' .BigEndian hcap hlen hwf
  cases b <;> cases b' <;>
    simp [Decoder.run, Decoder.next, Decoder.edgePhase, Decoder.exitPhase,
      postBit, bitBlock, hok, LOWER_BARRIER, UPPER_BARRIER,
      NO_EDGE_EXIT_LIMIT, SAMPLES_PER_HALF_BIT_PERIOD, TOLERANCE,
      Datagram.is_empty]

/-- Processing a list of further bits block by block: every bit is
appended big-endian and the canonical mid-frame state is re-established
after each block. -/
theorem run_bit_blocks (sync : SyncOnTurningEdge) (bs : List Bool) :
    ∀ (dgA : Datagram) (b : Bool),
      dgA.length_in_bit + bs.length ≤ 127 →
      dgA.buffer < 2 ^ dgA.length_in_bit →
      ∃ dgB, addBits .BigEndian dgA bs = .ok dgB ∧
        (postBit sync dgA b).run (bs.flatMap bitBlock) =
          some ([], postBit sync dgB (bs.getLastD b)) := by
  induction bs with
  | nil =>
    intro dgA b _ _
    exact ⟨dgA, rfl, rfl⟩
  | cons b' rest ih =>
    intro dgA b hcap hwf
    have hne : dgA.length_in_bit ≠ 127 := by
      simp only [List.length_cons] at hcap; omega
    have hlen : dgA.length_in_bit ≤ 127 := by omega
    have hok := add_bit_ok dgA b' .BigEndian hne hlen hwf
    have hstep := run_step_block sync dgA b b' hne hlen hwf
    have hwf' : (2 * dgA.buffer + b'.toNat) <
        2 ^ (dgA.length_in_bit + 1) := by
      have hb := Bool.toNat_le b'
      have hp : (2 : Nat) ^ (dgA.length_in_bit + 1) =
          2 * 2 ^ dgA.length_in_bit := by ring
      omega
    obtain ⟨dgB, haddB, hrunB⟩ :=
      ih ⟨dgA.length_in_bit + 1, 2 * dgA.buffer + b'.toNat⟩ b'
        (by show dgA.length_in_bit + 1 + rest.length ≤ 127
            simp only [List.length_cons] at hcap; omega)
        hwf'
    refine ⟨dgB, ?_, ?_⟩
    · simp only [addBits, hok]
      exact haddB
    · rw [List.flatMap_cons, run_append, hstep]
      simp only [Option.some_bind]
      rw [hrunB]
      have hlast : rest.getLastD b' = (b' :: rest).getLastD b := by
        cases rest <;> rfl
      rw [hlast]
      simp

/-- The ten trailing idle samples: the edge counter runs past the limit,
the non-empty accumulator is returned at the idle level, and the decoder
settles into the absorbed idle state. -/
theorem run_tail_idle (sync : SyncOnTurningEdge) (dgA : Datagram) (b : Bool)
    (hne : dgA.length_in_bit ≠ 0) :
    (postBit sync dgA b).run (List.replicate 10 true) =
      some ([dgA], endState sync) := by
  have hemp : (0 == dgA.length_in_bit) = false := by
    rw [beq_eq_false_iff_ne]
    omega
  have hrep : List.replicate 10 true =
      [true, true, true, true, true, true, true, true, true, true] := rfl
  rw [hrep]
  cases b <;>
    simp [Decoder.run, Decoder.next, Decoder.edgePhase, Decoder.exitPhase,
      postBit, endState, hemp, LOWER_BARRIER, UPPER_BARRIER,
      NO_EDGE_EXIT_LIMIT, SAMPLES_PER_HALF_BIT_PERIOD, TOLERANCE,
      Datagram.is_empty, Datagram.emptyDG]

theorem bigEndianBitsFrom_length (d : Datagram) :
    ∀ n, (bigEndianBitsFrom d n).length = n := by
  intro n
  induction n with
  | zero => rfl
  | succ n ih => simp [bigEndianBitsFrom, ih]

theorem foldl_bigEndianBitsFrom (d : Datagram) :
    ∀ (n : Nat) (init : Nat),
      List.foldl (fun a b => 2 * a + b.toNat) init (bigEndianBitsFrom d n) =
        init * 2 ^ n + d.buffer % 2 ^ n := by
  intro n
  induction n with
  | zero => intro init; simp [bigEndianBitsFrom, Nat.mod_one]
  | succ n ih =>
    intro init
    show List.foldl _ (2 * init + (d.testBitAt n).toNat)
      (bigEndianBitsFrom d n) = _
    rw [ih]
    unfold Datagram.testBitAt
    rw [← testBit_digit_mod d.buffer n]
    ring

/-- Re-appending the big-endian traversal of a well-formed datagram
rebuilds its packed value. -/
theorem beVal_bigEndianList (d : Datagram)
    (hwf : d.buffer < 2 ^ d.length_in_bit) :
    beVal d.bigEndianList = d.buffer := by
  unfold beVal Datagram.bigEndianList
  rw [foldl_bigEndianBitsFrom]
  simp [Nat.mod_eq_of_lt hwf]

/-- C1 amended: encoding a well-formed datagram of length 1..32 with the
big-endian Encoder, complementing each emitted level (the IR receiver
reads the radiated level as low and idles high), expanding each level
into 3 samples and appending a 10-sample trailing idle period, then
decoding with low activity, big-endian order and the synchronisation edge
matching the datagram's first transmitted bit, produces exactly the
original datagram. -/
theorem C1_encode_decode_roundtrip (d : Datagram)
    (hwf : d.buffer < 2 ^ d.length_in_bit)
    (hpos : 1 ≤ d.length_in_bit) (hcap : d.length_in_bit ≤ 32) :
    ∃ dfin, (roundTripDecoder d).run (roundTripSamples d) =
      some ([d], dfin) := by
  obtain ⟨m, hm⟩ : ∃ m, d.length_in_bit = m + 1 :=
    ⟨d.length_in_bit - 1, by omega⟩
  have hlist : d.bigEndianList = d.testBitAt m :: bigEndianBitsFrom d m := by
    unfold Datagram.bigEndianList
    rw [hm]
    rfl
  have hdec : roundTripDecoder d =
      Decoder.new .Low (syncOf (d.testBitAt m)) .BigEndian := by
    unfold roundTripDecoder
    rw [hm]
    rfl
  have hbslen : (bigEndianBitsFrom d m).length = m :=
    bigEndianBitsFrom_length d m
  have hb0 : (d.testBitAt m).toNat < 2 ^ 1 := by
    cases hb : d.testBitAt m <;> decide
  obtain ⟨dgB, haddB, hrunB⟩ :=
    run_bit_blocks (syncOf (d.testBitAt m)) (bigEndianBitsFrom d m)
      ⟨1, (d.testBitAt m).toNat⟩ (d.testBitAt m)
      (by show 1 + (bigEndianBitsFrom d m).length ≤ 127
          rw [hbslen]; omega)
      hb0
  have hval := addBits_be_ok (bigEndianBitsFrom d m)
    ⟨1, (d.testBitAt m).toNat⟩
    (by show 1 + (bigEndianBitsFrom d m).length ≤ 127
        rw [hbslen]; omega)
    hb0
  rw [hval] at haddB
  have hdgB : dgB =
      ⟨1 + (bigEndianBitsFrom d m).length,
        (d.testBitAt m).toNat * 2 ^ (bigEndianBitsFrom d m).length +
          beVal (bigEndianBitsFrom d m)⟩ :=
    (Except.ok.inj haddB).symm
  have hfold : beVal (bigEndianBitsFrom d m) = d.buffer % 2 ^ m := by
    unfold beVal
    rw [foldl_bigEndianBitsFrom]
    simp
  have hbuf : (d.testBitAt m).toNat * 2 ^ m + d.buffer % 2 ^ m = d.buffer := by
    unfold Datagram.testBitAt
    rw [testBit_digit_mod, ← hm]
    exact Nat.mod_eq_of_lt hwf
  have hdgBd : dgB = d := by
    rw [hdgB, hbslen]
    obtain ⟨L, buf⟩ := d
    simp only at hm hfold hbuf ⊢
    subst hm
    congr 1
    · omega
    · rw [hfold] at *
      omega
  rw [hdgBd] at hrunB
  refine ⟨endState (syncOf (d.testBitAt m)), ?_⟩
  rw [roundTripSamples_eq, hlist, hdec, List.flatMap_cons, List.append_assoc,
    run_append, run_first_block (d.testBitAt m)]
  simp only [Option.some_bind]
  rw [run_append, hrunB]
  simp only [Option.some_bind]
  rw [run_tail_idle (syncOf (d.testBitAt m)) d _ (by omega)]
  simp

/-- C1 witness: the two-bit datagram 01 (big-endian packed value 1) round
trips through encode, complement, triple, decode. -/
theorem C1_roundtrip_witness :
    ∃ dfin, (roundTripDecoder ⟨2, 1⟩).run (roundTripSamples ⟨2, 1⟩) =
      some ([⟨2, 1⟩], dfin) :=
  C1_encode_decode_roundtrip ⟨2, 1⟩ (by norm_num) (by norm_num) (by norm_num)

/-- Output quantified over every trailing idle length: the decoder never
produces the target datagram, no matter how long the line stays at the
trailing level after the sample stream. -/
def noOutputEver (dec : Decoder) (lead : List Bool) (lvl : Bool)
    (t : Datagram) : Prop :=
  ∀ (k : Nat) (outs : List Datagram) (dfin : Decoder),
    dec.run (lead ++ List.replicate k lvl) = some (outs, dfin) → t ∉ outs

/-- If one long-enough run ends in an absorbing state without producing
the target, no trailing extension ever produces it: shorter runs output a
subset, longer runs add nothing from the absorbed state. -/
theorem noOutputEver_of_flush (dec : Decoder) (lead : List Bool) (lvl : Bool)
    (t : Datagram) (j : Nat) (outs : List Datagram) (dfin : Decoder)
    (hrun : dec.run (lead ++ List.replicate j lvl) = some (outs, dfin))
    (hmem : t ∉ outs) (habs : Absorbing lvl dfin) :
    noOutputEver dec lead lvl t := by
  intro k outs' dfin' h'
  rcases le_total k j with hkj | hkj
  · have hsplit : lead ++ List.replicate j lvl =
        (lead ++ List.replicate k lvl) ++ List.replicate (j - k) lvl := by
      rw [List.append_assoc, ← List.replicate_add]
      congr 2
      omega
    rw [hsplit, run_append, h', Option.some_bind] at hrun
    cases hrest : dfin'.run (List.replicate (j - k) lvl) with
    | none => rw [hrest] at hrun; exact Option.noConfusion hrun
    | some q =>
      rw [hrest, Option.map_some'] at hrun
      have h2 := Option.some.inj hrun
      have houts : outs = outs' ++ q.1 := (congrArg Prod.fst h2).symm
      intro hmem'
      exact hmem (by rw [houts]; exact List.mem_append_left q.1 hmem')
  · have hsplit : lead ++ List.replicate k lvl =
        (lead ++ List.replicate j lvl) ++ List.replicate (k - j) lvl := by
      rw [List.append_assoc, ← List.replicate_add]
      congr 2
      omega
    rw [hsplit, run_append, hrun, Option.some_bind,
      run_absorbing lvl dfin habs (k - j), Option.map_some'] at h'
    have h2 := Option.some.inj h'
    have houts : outs' = outs ++ [] := (congrArg Prod.fst h2).symm
    rw [houts, List.append_nil]
    exact hmem

/-- Checkable form of the flush condition at a concrete trailing length.
-/
def flushCheck (dec : Decoder) (lead : List Bool) (lvl : Bool) (t : Datagram)
    (j : Nat) : Bool :=
  match dec.run (lead ++ List.replicate j lvl) with
  | some (outs, dfin) => !(decide (t ∈ outs)) && decide (Absorbing lvl dfin)
  | none => false

theorem noOutputEver_of_flushCheck (dec : Decoder) (lead : List Bool)
    (lvl : Bool) (t : Datagram) (j : Nat)
    (h : flushCheck dec lead lvl t j = true) :
    noOutputEver dec lead lvl t := by
  unfold flushCheck at h
  cases hrun : dec.run (lead ++ List.replicate j lvl) with
  | none => rw [hrun] at h; exact Bool.noConfusion h
  | some p =>
    obtain ⟨outs, dfin⟩ := p
    rw [hrun] at h
    simp only [Bool.and_eq_true, Bool.not_eq_true', decide_eq_false_iff_not,
      decide_eq_true_eq] at h
    exact noOutputEver_of_flush dec lead lvl t j outs dfin hrun h.1 h.2

/-- The sample stream of the claim as literally stated: each encoder
half-bit level fed to the decoder unchanged, expanded into 3 repeated
same-level samples. -/
def directSamples (encO : BitOrder) (d : Datagram) : List Bool :=
  (encoderLevels encO d).flatMap fun v => List.replicate 3 v

/-- C1 counterexample: for the three-bit datagram with packed value 1
(transmission order 0,0,1), feeding the encoder levels directly as
samples - three per half-bit level, followed by a trailing idle period of
any length at the decoder inactivity level - never makes Decoder::next
return the original datagram, under either encoder traversal order and
every decoder configuration (both activity levels, both synchronisation
edges, both bit orders).  The claim as stated fails for this input in all
sixteen combinations; recording always latches the negation of the raw
sample, so an uncomplemented feed cannot reproduce the buffer. -/
theorem C1_direct_feed_counterexample :
    noOutputEver (Decoder.new .High .First .BigEndian)
        (directSamples .BigEndian ⟨3, 1⟩) (idleLevel .High) ⟨3, 1⟩ ∧
      noOutputEver (Decoder.new .High .First .LittleEndian)
        (directSamples .BigEndian ⟨3, 1⟩) (idleLevel .High) ⟨3, 1⟩ ∧
      noOutputEver (Decoder.new .High .Second .BigEndian)
        (directSamples .BigEndian ⟨3, 1⟩) (idleLevel .High) ⟨3, 1⟩ ∧
      noOutputEver (Decoder.new .High .Second .LittleEndian)
        (directSamples .BigEndian ⟨3, 1⟩) (idleLevel .High) ⟨3, 1⟩ ∧
      noOutputEver (Decoder.new .Low .First .BigEndian)
        (directSamples .BigEndian ⟨3, 1⟩) (idleLevel .Low) ⟨3, 1⟩ ∧
      noOutputEver (Decoder.new .Low .First .LittleEndian)
        (directSamples .BigEndian ⟨3, 1⟩) (idleLevel .Low) ⟨3, 1⟩ ∧
      noOutputEver (Decoder.new .Low .Second .BigEndian)
        (directSamples .BigEndian ⟨3, 1⟩) (idleLevel .Low) ⟨3, 1⟩ ∧
      noOutputEver (Decoder.new .Low .Second .LittleEndian)
        (directSamples .BigEndian ⟨3, 1⟩) (idleLevel .Low) ⟨3, 1⟩ ∧
      noOutputEver (Decoder.new .High .First .BigEndian)
        (directSamples .LittleEndian ⟨3, 1⟩) (idleLevel .High) ⟨3, 1⟩ ∧
      noOutputEver (Decoder.new .High .First .LittleEndian)
        (directSamples .LittleEndian ⟨3, 1⟩) (idleLevel .High) ⟨3, 1⟩ ∧
      noOutputEver (Decoder.new .High .Second .BigEndian)
        (directSamples .LittleEndian ⟨3, 1⟩) (idleLevel .High) ⟨3, 1⟩ ∧
      noOutputEver (Decoder.new .High .Second .LittleEndian)
        (directSamples .LittleEndian ⟨3, 1⟩) (idleLevel .High) ⟨3, 1⟩ ∧
      noOutputEver (Decoder.new .Low .First .BigEndian)
        (directSamples .LittleEndian ⟨3, 1⟩) (idleLevel .Low) ⟨3, 1⟩ ∧
      noOutputEver (Decoder.new .Low .First .LittleEndian)
        (directSamples .LittleEndian ⟨3, 1⟩) (idleLevel .Low) ⟨3, 1⟩ ∧
      noOutputEver (Decoder.new .Low .Second .BigEndian)
        (directSamples .LittleEndian ⟨3, 1⟩) (idleLevel .Low) ⟨3, 1⟩ ∧
      noOutputEver (Decoder.new .Low .Second .LittleEndian)
        (directSamples .LittleEndian ⟨3, 1⟩) (idleLevel .Low) ⟨3, 1⟩ := by
  refine ⟨?_, ?_, ?_, ?_, ?_, ?_, ?_, ?_, ?_, ?_, ?_, ?_, ?_, ?_, ?_, ?_⟩ <;>
    exact noOutputEver_of_flushCheck _ _ _ _ 40 (by decide)
